import Mathlib

/-!
# Verification of the waveform condition language (`src/condition.rs`)

Shallow embedding of the condition-language core of the waveform-mcp
repository: Verilog-style literal decoding, the condition tokenizer and
recursive-descent parser, the time-indexed evaluator, the signal-name
extractor and the conditional-event scan driver, with theorems checking
the natural-language specification against the code.

Modelling conventions:
* Rust machine integers are embedded as `Nat`/`Int`; where two's-complement
  `i64` behaviour matters we keep an explicit 64-bit pattern (`Nat` reduced
  mod `2^64`) and decode it with `i64OfPat`.
* Rust `Result<T, String>` becomes `Except String T`; a Rust panic is a
  dedicated `RunResult.panicked` constructor where it can occur.
* The external `wellen` waveform provider is modelled by the `Waveform`
  structure: a list of (full name, signal ref) variables, a partial map from
  signal refs to loaded signals, a time table and a timescale.  A loaded
  signal is a partial function from time-table index to `SignalValue`
  (the composition of `Signal::get_offset` and `Signal::get_value_at`).
* `f64` values are abstracted by the fields the condition code observes:
  the truncating `as i64` cast and zero-ness (`RealRep`); no claim here
  depends on floating-point arithmetic.
-/

/-- The single-quote character (written via its code point 39). -/
def quoteChar : Char := Char.ofNat 39

/-- Decode a 64-bit pattern (a `Nat` < 2^64) as a two's-complement `i64`. -/
def i64OfPat (p : Nat) : Int :=
  if p < 2 ^ 63 then (p : Int) else (p : Int) - 2 ^ 64

/-- The 64-bit pattern of the Rust expression `1i64 << i` (shift amounts are
reduced mod 64, matching release-build semantics of an overlong shift). -/
def i64shl1pat (i : Nat) : Nat := (1 <<< (i % 64)) % 2 ^ 64

/-- The 64-bit pattern of the Rust expression `(b as i64) << i` for a byte `b`. -/
def i64shlBytePat (b i : Nat) : Nat := ((b % 2 ^ 64) <<< (i % 64)) % 2 ^ 64

/-- Is `c` an ASCII decimal digit? -/
def isAsciiDigit (c : Char) : Bool := decide (48 ≤ c.toNat) && decide (c.toNat ≤ 57)

/-- Numeric value of an ASCII decimal digit. -/
def digitVal (c : Char) : Nat := c.toNat - 48

/-- Numeric value of a (lower-case) hexadecimal digit, if any.
The literal decoder lower-cases its input first, so only `0-9`/`a-f`
can reach this point. -/
def hexDigitVal (c : Char) : Option Nat :=
  if isAsciiDigit c then some (digitVal c)
  else if 97 ≤ c.toNat ∧ c.toNat ≤ 102 then some (c.toNat - 87)
  else none

/-- Fold a digit list in base `base` left to right; `none` on a non-digit. -/
def foldDigits (base : Nat) (digit : Char → Option Nat) : List Char → Nat → Option Nat
  | [], acc => some acc
  | c :: rest, acc =>
    match digit c with
    | some d => foldDigits base digit rest (base * acc + d)
    | none => none

/-- Rust `str::parse::<u64>` on a character list: optional leading `+`,
then at least one decimal digit, result below `2^64` (overflow is a parse
error in Rust). -/
def parseU64 (s : List Char) : Option Nat :=
  let body := match s with
    | '+' :: rest => rest
    | other => other
  match body with
  | [] => none
  | _ =>
    match foldDigits 10 (fun c => if isAsciiDigit c then some (digitVal c) else none) body 0 with
    | some v => if v < 2 ^ 64 then some v else none
    | none => none

/-- Rust `str::parse::<usize>` (64-bit target): same as `parseU64`. -/
def parseUsize (s : List Char) : Option Nat := parseU64 s

/-- Rust `u64::from_str_radix(s, 16)`: optional leading `+`, then at least
one hexadecimal digit, result below `2^64`. -/
def parseHexU64 (s : List Char) : Option Nat :=
  let body := match s with
    | '+' :: rest => rest
    | other => other
  match body with
  | [] => none
  | _ =>
    match foldDigits 16 hexDigitVal body 0 with
    | some v => if v < 2 ^ 64 then some v else none
    | none => none

/-- Rust `str::parse::<i64>`: optional sign, decimal digits, `i64` range. -/
def parseI64 (s : List Char) : Option Int :=
  let (neg, body) := match s with
    | '+' :: rest => (false, rest)
    | '-' :: rest => (true, rest)
    | other => (false, other)
  match body with
  | [] => none
  | _ =>
    match foldDigits 10 (fun c => if isAsciiDigit c then some (digitVal c) else none) body 0 with
    | some v =>
      if neg then
        if v ≤ 2 ^ 63 then some (-(v : Int)) else none
      else
        if v < 2 ^ 63 then some (v : Int) else none
    | none => none

/-- The `Literal` type from `src/condition.rs`: a decoded Verilog-style literal.
`Binary` stores the digit bits only; `Decimal`/`Hexadecimal` store a `u64`
magnitude.  Note that none of the variants stores the `<width>'` prefix. -/
inductive Literal where
  | binary (bits : List Bool)
  | decimal (v : Nat)
  | hexadecimal (v : Nat)
deriving DecidableEq, Repr

/-- The `Condition` AST type from `src/condition.rs`: the condition AST. -/
inductive Condition where
  | and (l r : Condition)
  | or (l r : Condition)
  | not (e : Condition)
  | signal (path : String)
  | eq (l r : Condition)
  | neq (l r : Condition)
  | literal (lit : Literal)
  | past (e : Condition)
deriving DecidableEq, Repr

/-- Split a character list at every single-quote, mirroring Rust
`str::split('\x27')` (a list of groups; `k` quotes yield `k+1` groups). -/
def splitOnQuote : List Char → List (List Char)
  | [] => [[]]
  | c :: rest =>
    if c = quoteChar then [] :: splitOnQuote rest
    else
      match splitOnQuote rest with
      | [] => [[c]]
      | g :: gs => (c :: g) :: gs

/-- Decode the binary digit string of a `'b` literal: `0`/`1` become bits,
`_` is skipped, `x`/`z` and anything else are errors
(`parse_verilog_literal`, binary arm). -/
def decodeBinaryDigits : List Char → Except String (List Bool)
  | [] => .ok []
  | c :: rest =>
    if c = '0' then do
      let bits ← decodeBinaryDigits rest
      .ok (false :: bits)
    else if c = '1' then do
      let bits ← decodeBinaryDigits rest
      .ok (true :: bits)
    else if c = 'x' ∨ c = 'z' then .error "X and Z not supported in comparisons"
    else if c = '_' then decodeBinaryDigits rest
    else .error ("Invalid binary digit: " ++ String.mk [c])

/-- Embedding of `parse_verilog_literal` from `src/condition.rs`: lower-cases the token,
splits on the quote, parses (and then discards) the width prefix, then
decodes the `<base><digits>` part. -/
def parse_verilog_literal (s : String) : Except String Literal :=
  let lower := s.data.map Char.toLower
  let parts := splitOnQuote lower
  match parts with
  | [widthPart, valuePart] =>
    match parseUsize widthPart with
    | none => .error ("Invalid width: " ++ String.mk widthPart)
    | some _width =>
      match valuePart with
      | [] => .error "Missing base specifier"
      | base :: valueStr =>
        if base = 'b' then
          match decodeBinaryDigits valueStr with
          | .ok bits => .ok (.binary bits)
          | .error e => .error e
        else if base = 'd' then
          match parseU64 (valueStr.filter (· ≠ '_')) with
          | some v => .ok (.decimal v)
          | none => .error ("Invalid decimal value: " ++ String.mk valueStr)
        else if base = 'h' then
          match parseHexU64 (valueStr.filter (· ≠ '_')) with
          | some v => .ok (.hexadecimal v)
          | none => .error ("Invalid hex value: " ++ String.mk (valueStr.filter (· ≠ '_')))
        else .error ("Unknown base specifier: " ++ String.mk [base])
  | _ => .error "Invalid literal format"

/-- Flush the current partial token into the token list if it is nonempty
(the repeated `if !current.is_empty() { tokens.push(...) }` idiom of
`tokenize_condition`). -/
def flushTok (tokens : List String) (current : String) : List String :=
  if current = "" then tokens else tokens ++ [current]

/-- The character-consuming loop of `tokenize_condition`.  `pos` is the
running character index `i` (used only in the bare-`=` diagnostic);
`current` is the partial token buffer, `tokens` the emitted tokens.
Two-character operators are recognised by one-character lookahead, and
`$past` by four-character lookahead exactly as in the source. -/
def tokenizeLoop : List Char → Nat → String → List String → Except String (List String)
  | [], _, current, tokens => .ok (flushTok tokens current)
  | '&' :: '&' :: rest, pos, current, tokens =>
    tokenizeLoop rest (pos + 2) "" (flushTok tokens current ++ ["&&"])
  | '&' :: rest, pos, current, tokens =>
    tokenizeLoop rest (pos + 1) (current.push '&') tokens
  | '|' :: '|' :: rest, pos, current, tokens =>
    tokenizeLoop rest (pos + 2) "" (flushTok tokens current ++ ["||"])
  | '|' :: rest, pos, current, tokens =>
    tokenizeLoop rest (pos + 1) (current.push '|') tokens
  | '=' :: '=' :: rest, pos, current, tokens =>
    tokenizeLoop rest (pos + 2) "" (flushTok tokens current ++ ["=="])
  | '=' :: _, pos, _, _ =>
    .error ("Unexpected single '=' at position " ++ toString pos)
  | '!' :: '=' :: rest, pos, current, tokens =>
    tokenizeLoop rest (pos + 2) "" (flushTok tokens current ++ ["!="])
  | '!' :: rest, pos, current, tokens =>
    tokenizeLoop rest (pos + 1) "" (flushTok tokens current ++ ["!"])
  | '$' :: 'p' :: 'a' :: 's' :: 't' :: rest, pos, current, tokens =>
    tokenizeLoop rest (pos + 5) "" (flushTok tokens current ++ ["$past"])
  | '$' :: rest, pos, current, tokens =>
    tokenizeLoop rest (pos + 1) (current.push '$') tokens
  | '(' :: rest, pos, current, tokens =>
    tokenizeLoop rest (pos + 1) "" (flushTok tokens current ++ ["("])
  | ')' :: rest, pos, current, tokens =>
    tokenizeLoop rest (pos + 1) "" (flushTok tokens current ++ [")"])
  | ' ' :: rest, pos, current, tokens =>
    tokenizeLoop rest (pos + 1) "" (flushTok tokens current)
  | '\t' :: rest, pos, current, tokens =>
    tokenizeLoop rest (pos + 1) "" (flushTok tokens current)
  | c :: rest, pos, current, tokens =>
    tokenizeLoop rest (pos + 1) (current.push c) tokens

/-- Embedding of `tokenize_condition` from `src/condition.rs`. -/
def tokenize_condition (condition : String) : Except String (List String) :=
  tokenizeLoop condition.data 0 "" []

/-- Offset of the parenthesis that closes an (already open) group at depth
`depth`, mirroring the `close_pos` scan of `parse_primary`'s `$past` arm. -/
def findClosingParen : List String → Nat → Option Nat
  | [], _ => none
  | t :: rest, depth =>
    let depth' := if t = "(" then depth + 1 else if t = ")" then depth - 1 else depth
    if depth' = 0 then some 0
    else
      match findClosingParen rest depth' with
      | some off => some (off + 1)
      | none => none

/-! The recursive-descent parser of `src/condition.rs`
(`parse_or` / `parse_and` / `parse_comparison` / `parse_not` /
`parse_primary`).  Rust guarantees termination because every recursive
call operates on a strictly smaller token slice; the embedding makes the
same bound explicit through a `fuel` parameter (decremented on every
call and chosen large enough by `parse_condition` that it never runs
out on any input the Rust parser terminates on). -/

mutual

/-- Parser level `parse_or`: lowest precedence, a left fold over `||`. -/
def parse_or (fuel : Nat) (tokens : List String) :
    Except String (Condition × List String) :=
  match fuel with
  | 0 => .error "parser recursion limit exceeded"
  | fuel + 1 => do
    let (left, rest) ← parse_and fuel tokens
    parse_or_more fuel left rest

/-- The `while` loop of `parse_or`. -/
def parse_or_more (fuel : Nat) (left : Condition) (rest : List String) :
    Except String (Condition × List String) :=
  match fuel with
  | 0 => .error "parser recursion limit exceeded"
  | fuel + 1 =>
    match rest with
    | t :: rest1 =>
      if t = "||" then do
        let (right, rest2) ← parse_and fuel rest1
        parse_or_more fuel (.or left right) rest2
      else .ok (left, t :: rest1)
    | [] => .ok (left, [])

/-- Parser level `parse_and`: a left fold over `&&`. -/
def parse_and (fuel : Nat) (tokens : List String) :
    Except String (Condition × List String) :=
  match fuel with
  | 0 => .error "parser recursion limit exceeded"
  | fuel + 1 => do
    let (left, rest) ← parse_comparison fuel tokens
    parse_and_more fuel left rest

/-- The `while` loop of `parse_and`. -/
def parse_and_more (fuel : Nat) (left : Condition) (rest : List String) :
    Except String (Condition × List String) :=
  match fuel with
  | 0 => .error "parser recursion limit exceeded"
  | fuel + 1 =>
    match rest with
    | t :: rest1 =>
      if t = "&&" then do
        let (right, rest2) ← parse_comparison fuel rest1
        parse_and_more fuel (.and left right) rest2
      else .ok (left, t :: rest1)
    | [] => .ok (left, [])

/-- Parser level `parse_comparison`: a left fold over `==` / `!=`. -/
def parse_comparison (fuel : Nat) (tokens : List String) :
    Except String (Condition × List String) :=
  match fuel with
  | 0 => .error "parser recursion limit exceeded"
  | fuel + 1 => do
    let (left, rest) ← parse_not fuel tokens
    parse_comparison_more fuel left rest

/-- The `while` loop of `parse_comparison`. -/
def parse_comparison_more (fuel : Nat) (left : Condition) (rest : List String) :
    Except String (Condition × List String) :=
  match fuel with
  | 0 => .error "parser recursion limit exceeded"
  | fuel + 1 =>
    match rest with
    | t :: rest1 =>
      if t = "==" then do
        let (right, rest2) ← parse_not fuel rest1
        parse_comparison_more fuel (.eq left right) rest2
      else if t = "!=" then do
        let (right, rest2) ← parse_not fuel rest1
        parse_comparison_more fuel (.neq left right) rest2
      else .ok (left, t :: rest1)
    | [] => .ok (left, [])

/-- Parser level `parse_not`: a chain of prefix `!`. -/
def parse_not (fuel : Nat) (tokens : List String) :
    Except String (Condition × List String) :=
  match fuel with
  | 0 => .error "parser recursion limit exceeded"
  | fuel + 1 =>
    match tokens with
    | t :: rest =>
      if t = "!" then do
        let (expr, rest1) ← parse_not fuel rest
        .ok (.not expr, rest1)
      else parse_primary fuel tokens
    | [] => parse_primary fuel tokens

/-- Parser level `parse_primary`: parenthesised expression, `$past(...)`, literal or
signal path. -/
def parse_primary (fuel : Nat) (tokens : List String) :
    Except String (Condition × List String) :=
  match fuel with
  | 0 => .error "parser recursion limit exceeded"
  | fuel + 1 =>
    match tokens with
    | [] => .error "Unexpected end of tokens"
    | t :: rest =>
      if t = "(" then do
        let (expr, rest1) ← parse_or fuel rest
        match rest1 with
        | u :: rest2 =>
          if u = ")" then .ok (expr, rest2)
          else .error "Expected closing parenthesis"
        | [] => .error "Expected closing parenthesis"
      else if t = "$past" then
        if tokens.length < 3 then
          .error "Expected expression and closing parenthesis after $past"
        else if rest.head? ≠ some "(" then
          .error "Expected '(' after $past"
        else
          match findClosingParen (tokens.drop 2) 1 with
          | none => .error "Unmatched parentheses in $past expression"
          | some off => do
            -- close_pos = 2 + off points at the balancing ")"
            let (expr, rest1) ← parse_or fuel ((tokens.drop 2).take off)
            match rest1 with
            | [] => .ok (.past expr, tokens.drop (2 + off + 1))
            | _ => .error ("Unexpected tokens in $past(): " ++ toString rest1)
      else
        match parse_verilog_literal t with
        | .ok lit => .ok (.literal lit, rest)
        | .error _ => .ok (.signal t, rest)

end

/-- Embedding of `parse_condition` from `src/condition.rs`: tokenize, parse an `or`
expression, and require that no tokens remain.  The fuel bound
`10 * (length + 2)` dominates the recursion depth of the Rust parser on
any token list. -/
def parse_condition (condition : String) : Except String Condition := do
  let tokens ← tokenize_condition condition
  let (ast, rest) ← parse_or (10 * (tokens.length + 2)) tokens
  match rest with
  | [] => .ok ast
  | _ => .error ("Unexpected tokens at end of condition: " ++ toString rest)

/-- A signal reference (`wellen::SignalRef`). -/
abbrev SignalRef := Nat

/-- Abstraction of an `f64` by the two observations the condition code
makes of it: the truncating `r as i64` cast and `r != 0.0`. -/
structure RealRep where
  trunc : Int
  isZero : Bool
deriving DecidableEq, Repr

/-- The `wellen::SignalValue` type: the value representations the provider can
return.  Bit-vector payloads are byte lists (`&[u8]`) plus a bit count. -/
inductive SignalValue where
  | binary (data : List Nat) (bits : Nat)
  | fourValue (data : List Nat) (bits : Nat)
  | nineValue (data : List Nat) (bits : Nat)
  | str (s : String)
  | real (r : RealRep)
  | event
deriving DecidableEq, Repr

/-- A loaded signal: its value at a time-table index, if any (composition
of `Signal::get_offset` — `none` when no data exists at or before the
index — and `Signal::get_value_at`). -/
structure WSignal where
  valueAt : Nat → Option SignalValue

/-- The `wellen::TimescaleUnit` type. -/
inductive TimescaleUnit where
  | zepto | atto | femto | pico | nano | micro | milli | seconds | unknown
deriving DecidableEq, Repr

/-- The `wellen::Timescale` record. -/
structure Timescale where
  factor : Nat
  unit : TimescaleUnit
deriving DecidableEq, Repr

/-- The waveform provider (`wellen::simple::Waveform` plus its hierarchy):
variables with their full hierarchical names, loaded signals, the time
table and the timescale.  `load_signals` only populates the provider's
internal cache, so it is modelled as a no-op on this structure. -/
structure Waveform where
  vars : List (String × SignalRef)
  signals : SignalRef → Option WSignal
  timeTable : List Nat
  timescale : Option Timescale

/-- Embedding of `find_signal_by_path` from `src/hierarchy.rs`: linear scan over all
variables for an exact full-name match. -/
def find_signal_by_path (vars : List (String × SignalRef)) (path : String) :
    Option SignalRef :=
  match vars with
  | [] => none
  | (name, r) :: rest =>
    if name = path then some r else find_signal_by_path rest path

/-- The byte-accumulation loop shared by the bit-vector arms of
`signal_value_to_i64`: for each byte `b` at index `i`,
`value |= (b as i64) << i` when `b != 0` (the shift distance is the byte
index, exactly as in the source). -/
def accumBytes : List Nat → Nat → Nat → Nat
  | [], _, v => v
  | b :: rest, i, v =>
    accumBytes rest (i + 1) (if b ≠ 0 then v ||| i64shlBytePat b i else v)

/-- Embedding of `signal_value_to_i64` from `src/condition.rs`. -/
def signal_value_to_i64 (signalValue : SignalValue) : Except String Int :=
  match signalValue with
  | .binary data _ => .ok (i64OfPat (accumBytes data 0 0))
  | .fourValue data _ => .ok (i64OfPat (accumBytes data 0 0))
  | .nineValue data _ => .ok (i64OfPat (accumBytes data 0 0))
  | .str s =>
    match parseI64 s.data with
    | some v => .ok v
    | none => .error ("Cannot convert string '" ++ s ++ "' to integer")
  | .real r => .ok r.trunc
  | .event => .error "Event signal cannot be compared"

/-- The bit-accumulation loop of `literal_to_i64`'s binary arm: iterate the
bit list in reverse; bit `i` from the end contributes `1i64 << i`. -/
def accumBits : List Bool → Nat → Nat → Nat
  | [], _, v => v
  | b :: rest, i, v =>
    accumBits rest (i + 1) (if b then v ||| i64shl1pat i else v)

/-- Embedding of `literal_to_i64` from `src/condition.rs`.  `Decimal`/`Hexadecimal`
store a `u64`; `*v as i64` reinterprets its 64-bit pattern. -/
def literal_to_i64 (literal : Literal) : Except String Int :=
  match literal with
  | .binary bits => .ok (i64OfPat (accumBits bits.reverse 0 0))
  | .decimal v => .ok (i64OfPat v)
  | .hexadecimal v => .ok (i64OfPat v)

/-- Rust `str::eq_ignore_ascii_case` (ASCII lower-casing on both sides). -/
def eqIgnoreAsciiCase (a b : String) : Bool :=
  a.data.map Char.toLower == b.data.map Char.toLower

/-- Embedding of `is_signal_true` from `src/condition.rs`: truthiness of a provider
value.  Note the `Event` arm: it yields `false`, not an error. -/
def is_signal_true (signalValue : SignalValue) : Bool :=
  match signalValue with
  | .binary data _ => data.any (· ≠ 0)
  | .fourValue data _ => data.any (· ≠ 0)
  | .nineValue data _ => data.any (· ≠ 0)
  | .str s => s == "1" || eqIgnoreAsciiCase s "true"
  | .real r => !r.isZero
  | .event => false

/-- A `wellen::TimeTableIdx` is a `u32`; `time_idx.try_into()` fails above
`u32::MAX`. -/
def timeIdxFits (timeIdx : Nat) : Bool := decide (timeIdx < 2 ^ 32)

/-- The shared `Signal(path)` leaf lookup of both evaluators: cache hit,
loaded-signal lookup, `u32` index conversion, then the value at the index. -/
def lookupSignalValue (w : Waveform) (cache : List (String × SignalRef))
    (path : String) (timeIdx : Nat) : Except String SignalValue :=
  match cache.lookup path with
  | none => Except.error ("Signal not found in cache: " ++ path)
  | some signalRef =>
    match w.signals signalRef with
    | none => Except.error ("Signal not found in waveform: " ++ path)
    | some signal =>
      if timeIdxFits timeIdx then
        match signal.valueAt timeIdx with
        | some v => Except.ok v
        | none =>
          Except.error
            ("No data for signal " ++ path ++ " at time index " ++ toString timeIdx)
      else
        Except.error ("Time index " ++ toString timeIdx ++ " too large")

/-- Embedding of `evaluate_condition_to_value` from `src/condition.rs`: evaluate a
condition to an `i64` for comparison purposes.  Only `Signal`, `Literal`
and `Past` nodes are value-typed; everything else is an error, and `Past`
at time index 0 is an error (unlike its truthiness evaluation). -/
def evaluate_condition_to_value (condition : Condition) (w : Waveform)
    (cache : List (String × SignalRef)) (timeIdx : Nat) : Except String Int :=
  match condition with
  | .signal path => do
    let v ← lookupSignalValue w cache path timeIdx
    signal_value_to_i64 v
  | .literal lit => literal_to_i64 lit
  | .past e =>
    if timeIdx = 0 then .error "No previous value at time index 0"
    else evaluate_condition_to_value e w cache (timeIdx - 1)
  | _ => .error "Expected signal or literal in comparison"

/-- Embedding of `evaluate_condition` from `src/condition.rs`: evaluate a condition to
a boolean at a time index.  `Past` at time index 0 yields `false` without
evaluating its operand; a bare `Literal` is an error. -/
def evaluate_condition (condition : Condition) (w : Waveform)
    (cache : List (String × SignalRef)) (timeIdx : Nat) : Except String Bool :=
  match condition with
  | .and l r => do
    let lv ← evaluate_condition l w cache timeIdx
    let rv ← evaluate_condition r w cache timeIdx
    .ok (lv && rv)
  | .or l r => do
    let lv ← evaluate_condition l w cache timeIdx
    let rv ← evaluate_condition r w cache timeIdx
    .ok (lv || rv)
  | .not e => do
    let v ← evaluate_condition e w cache timeIdx
    .ok (!v)
  | .signal path => do
    let v ← lookupSignalValue w cache path timeIdx
    .ok (is_signal_true v)
  | .eq l r => do
    let lv ← evaluate_condition_to_value l w cache timeIdx
    let rv ← evaluate_condition_to_value r w cache timeIdx
    .ok (lv == rv)
  | .neq l r => do
    let lv ← evaluate_condition_to_value l w cache timeIdx
    let rv ← evaluate_condition_to_value r w cache timeIdx
    .ok (lv != rv)
  | .literal _ => .error "Literals must be used in comparisons"
  | .past e =>
    if timeIdx = 0 then .ok false
    else evaluate_condition e w cache (timeIdx - 1)

/-- Embedding of `extract_signal_names_recursive` from `src/condition.rs`: push each
`Signal` path not already collected; recurse into every operand. -/
def extract_signal_names_recursive (condition : Condition) (names : List String) :
    List String :=
  match condition with
  | .and l r => extract_signal_names_recursive r (extract_signal_names_recursive l names)
  | .or l r => extract_signal_names_recursive r (extract_signal_names_recursive l names)
  | .not e => extract_signal_names_recursive e names
  | .eq l r => extract_signal_names_recursive r (extract_signal_names_recursive l names)
  | .neq l r => extract_signal_names_recursive r (extract_signal_names_recursive l names)
  | .signal path => if path ∈ names then names else names ++ [path]
  | .literal _ => names
  | .past e => extract_signal_names_recursive e names

/-- Embedding of `extract_signal_names` from `src/condition.rs`. -/
def extract_signal_names (condition : Condition) : List String :=
  extract_signal_names_recursive condition []

/-- The unit suffix table of `format_time` (`src/formatting.rs`). -/
def timescaleUnitStr : TimescaleUnit → String
  | .zepto => "zs"
  | .atto => "as"
  | .femto => "fs"
  | .pico => "ps"
  | .nano => "ns"
  | .micro => "us"
  | .milli => "ms"
  | .seconds => "s"
  | .unknown => "unknown"

/-- Embedding of `format_time` from `src/formatting.rs` (`time_value * factor` is a
`u64` multiplication, hence the explicit wrap). -/
def format_time (timeValue : Nat) (timescale : Option Timescale) : String :=
  match timescale with
  | some ts => toString (timeValue * ts.factor % 2 ^ 64) ++ timescaleUnitStr ts.unit
  | none => toString timeValue ++ " (unknown timescale)"

/-- One match record emitted by `find_conditional_events`.  The Rust code
renders it as the string
`"Time index {timeIdx} ({formattedTime}): {name1} = {value1}, ..."`;
the embedding keeps the three `format!` arguments as fields (with the
per-signal values unrendered) so theorems can speak about the time index. -/
structure EventRec where
  timeIdx : Nat
  formattedTime : String
  signalValues : List (String × SignalValue)
deriving DecidableEq, Repr

/-- The per-match display loop of `find_conditional_events` (lines
584-599): for each referenced signal, look up cache and loaded signal
(silently skipping misses), propagate the `u32` conversion error, and skip
signals with no data at the index. -/
def collectSignalValues (w : Waveform) (cache : List (String × SignalRef))
    (names : List String) (timeIdx : Nat) :
    Except String (List (String × SignalValue)) :=
  match names with
  | [] => .ok []
  | n :: rest =>
    match cache.lookup n with
    | none => collectSignalValues w cache rest timeIdx
    | some r =>
      match w.signals r with
      | none => collectSignalValues w cache rest timeIdx
      | some sig =>
        if timeIdxFits timeIdx then
          match sig.valueAt timeIdx with
          | none => collectSignalValues w cache rest timeIdx
          | some v => do
            let tail ← collectSignalValues w cache rest timeIdx
            .ok ((n, v) :: tail)
        else .error ("Time index " ++ toString timeIdx ++ " too large")

/-- The signal-resolution loop of `find_conditional_events` (lines
555-568): resolve every extracted name (first failure aborts) and build
the signal cache.  `load_signals` has no observable effect in the model. -/
def buildSignalCache (w : Waveform) (names : List String) :
    Except String (List (String × SignalRef)) :=
  match names with
  | [] => .ok []
  | n :: rest =>
    match find_signal_by_path w.vars n with
    | none => .error ("Signal not found: " ++ n)
    | some r => do
      let cache ← buildSignalCache w rest
      .ok ((n, r) :: cache)

/-- Result of a Rust call that can also panic. -/
inductive RunResult (α : Type) where
  | panicked
  | error (e : String)
  | ok (val : α)
deriving DecidableEq, Repr

/-- The scan loop of `find_conditional_events` (lines 577-613) over the
slice `time_table[start_idx..=end]`.  `enumIdx` is the `enumerate` index,
`events` the accumulator.  The `limit` check sits at the end of every
iteration — after a match has already been pushed — and fires as soon as
`limit >= 0 && events.len() >= limit as usize`. -/
def scanLoop (ast : Condition) (w : Waveform) (cache : List (String × SignalRef))
    (names : List String) (startIdx : Nat) (limit : Int) :
    List Nat → Nat → List EventRec → Except String (List EventRec)
  | [], _, events => .ok events
  | timeValue :: rest, enumIdx, events =>
    let timeIdx := startIdx + enumIdx
    match evaluate_condition ast w cache timeIdx with
    | .error e => .error e
    | .ok matched =>
      let pushed : Except String (List EventRec) :=
        if matched then
          match collectSignalValues w cache names timeIdx with
          | .error e => .error e
          | .ok vals =>
            .ok (events ++ [⟨timeIdx, format_time timeValue w.timescale, vals⟩])
        else .ok events
      match pushed with
      | .error e => .error e
      | .ok events1 =>
        if 0 ≤ limit ∧ limit.toNat ≤ events1.length then .ok events1
        else scanLoop ast w cache names startIdx limit rest (enumIdx + 1) events1

/-- Embedding of `find_conditional_events` from `src/condition.rs`: parse the
condition, resolve and load every referenced signal, then scan the
inclusive index range.  `end` is clamped to the last valid index
(`end_idx.min(len.saturating_sub(1))`), and the slice
`time_table[start_idx..=end]` is taken *before* any bounds check on
`start_idx`: the call panics when `start_idx > end + 1` or when
`end + 1 > len` (in particular whenever the time table is empty). -/
def find_conditional_events (w : Waveform) (condition : String)
    (startIdx endIdx : Nat) (limit : Int) : RunResult (List EventRec) :=
  match parse_condition condition with
  | .error e => .error e
  | .ok ast =>
    let signalNames := extract_signal_names ast
    match buildSignalCache w signalNames with
    | .error e => .error e
    | .ok cache =>
      let timeTable := w.timeTable
      let endC := min endIdx (timeTable.length - 1)
      if endC + 1 > timeTable.length ∨ startIdx > endC + 1 then .panicked
      else
        let slice := (timeTable.drop startIdx).take (endC + 1 - startIdx)
        match scanLoop ast w cache signalNames startIdx limit slice 0 [] with
        | .error e => .error e
        | .ok events => .ok events

/-! ## Specification-side definitions

These definitions formalise the *spec's* wording, to be compared with the
embedded source functions above. -/

/-- The unsigned binary value of a most-significant-bit-first bit list
(the spec's "binary value of `<bits>`"). -/
def binaryValue (bits : List Bool) : Nat :=
  bits.foldl (fun acc b => 2 * acc + (if b then 1 else 0)) 0

/-- Little-endian value of a bit list (bit `i` of the list weighs `2^i`). -/
def lvVal : List Bool → Nat
  | [] => 0
  | b :: rest => (if b then 1 else 0) + 2 * lvVal rest

/-- The `0`/`1` digits of a binary digit string as bits, underscores
dropped (what a correct `'b` decode must produce). -/
def bitsOfDigits (digits : List Char) : List Bool :=
  digits.filterMap fun c =>
    if c = '0' then some false else if c = '1' then some true else none

/-- Left-to-right list of every `Signal` path occurrence in a condition
(the traversal order of the extractor, duplicates kept). -/
def signalOccurrences : Condition → List String
  | .and l r => signalOccurrences l ++ signalOccurrences r
  | .or l r => signalOccurrences l ++ signalOccurrences r
  | .not e => signalOccurrences e
  | .eq l r => signalOccurrences l ++ signalOccurrences r
  | .neq l r => signalOccurrences l ++ signalOccurrences r
  | .signal path => [path]
  | .literal _ => []
  | .past e => signalOccurrences e

/-- Append `p` unless already present (the extractor's push step). -/
def pushNew (names : List String) (p : String) : List String :=
  if p ∈ names then names else names ++ [p]

/-- First-occurrence-order de-duplication of a list (the spec's
"preserving first-occurrence order and de-duplicating repeats"). -/
def firstOccurrenceDedup (l : List String) : List String :=
  l.foldl pushNew []

/-- Modelled from the spec: the `BitExtract(path, msb, lsb)` evaluation
rule of §4.3.  The `BitExtract` AST variant and its evaluator are absent
from the source snapshot under `src/` (only the repository's tests and
the spec reference bit extraction), so the rule is taken from the spec's
words: first evaluate as `Signal(path)` to obtain `(magnitude,
full_width)`; with both bounds present, validate `msb ≥ lsb` (error
otherwise), take `num_bits = msb - lsb + 1`, shift right by `lsb` and
mask to `num_bits` bits; with neither bound, return the signal result
unchanged. -/
def bitExtract_evaluate (signalResult : Except String (Nat × Nat))
    (msb lsb : Option Nat) : Except String (Nat × Nat) :=
  match signalResult with
  | .error e => .error e
  | .ok (magnitude, fullWidth) =>
    match msb, lsb with
    | some m, some l =>
      if m < l then
        Except.error "BitExtract with msb < lsb"
      else
        let numBits := m - l + 1
        Except.ok ((magnitude >>> l) % 2 ^ numBits, numBits)
    | none, none => Except.ok (magnitude, fullWidth)
    | _, _ => Except.error "BitExtract with exactly one bound"

/-! ## Concrete fixtures for counterexamples and witnesses -/

/-- A signal holding the same value at every time index. -/
def sigConst (v : SignalValue) : WSignal := ⟨fun _ => some v⟩

/-- A one-bit two-state value. -/
def oneBit (b : Bool) : SignalValue := .binary [if b then 1 else 0] 1

/-- A waveform with a single one-bit signal `a`, constantly 1, and five
time-table entries. -/
def wA : Waveform :=
  { vars := [("a", 0)]
    signals := fun r => if r = 0 then some (sigConst (oneBit true)) else none
    timeTable := [0, 10, 20, 30, 40]
    timescale := none }

/-- A waveform whose single signal `p` is event-typed at every index. -/
def wEvent : Waveform :=
  { vars := [("p", 0)]
    signals := fun r => if r = 0 then some (sigConst .event) else none
    timeTable := [0]
    timescale := none }

/-- A waveform with a resolvable signal `a` but an empty time table. -/
def wEmpty : Waveform :=
  { vars := [("a", 0)]
    signals := fun _ => none
    timeTable := []
    timescale := none }

/-- The match record the scan over `wA` emits at time index `i`. -/
def wAEvent (i : Nat) : EventRec :=
  ⟨i, toString (wA.timeTable.getD i 0) ++ " (unknown timescale)", [("a", oneBit true)]⟩

/-! ## Shared helper lemmas -/

theorem mem_pushNew {names : List String} {a x : String} :
    x ∈ pushNew names a ↔ x ∈ names ∨ x = a := by
  unfold pushNew
  by_cases h : a ∈ names
  · rw [if_pos h]
    constructor
    · exact Or.inl
    · rintro (hx | rfl) <;> [exact hx; exact h]
  · rw [if_neg h]
    simp

theorem mem_foldl_pushNew (l : List String) :
    ∀ names x, x ∈ l.foldl pushNew names ↔ x ∈ names ∨ x ∈ l := by
  induction l with
  | nil => simp
  | cons a l ih =>
    intro names x
    rw [List.foldl_cons, ih, mem_pushNew]
    simp
    tauto

theorem nodup_foldl_pushNew (l : List String) :
    ∀ names : List String, names.Nodup → (l.foldl pushNew names).Nodup := by
  induction l with
  | nil => exact fun _ h => h
  | cons a l ih =>
    intro names hn
    rw [List.foldl_cons]
    refine ih _ ?_
    unfold pushNew
    by_cases h : a ∈ names <;> simp [h, List.nodup_append, hn]

theorem extract_names_foldl (c : Condition) :
    ∀ names, extract_signal_names_recursive c names =
      (signalOccurrences c).foldl pushNew names := by
  induction c <;> intro names <;>
    simp [extract_signal_names_recursive, signalOccurrences, List.foldl_append,
      pushNew, *]

/-! ## Claims -/

/-- C1 (amended): at time index 0, `Past(E)` evaluated for truthiness
yields `Ok(false)` for every `E`, every waveform and every cache — the
operand is never evaluated, hence no provider lookup at a negative index.
But as an operand of `Eq`/`Neq` (value evaluation), `Past(E)` at time
index 0 is an *error*, not the false value. -/
theorem past_at_time_zero (e : Condition) (w : Waveform)
    (cache : List (String × SignalRef)) :
    evaluate_condition (.past e) w cache 0 = .ok false ∧
    evaluate_condition_to_value (.past e) w cache 0 =
      .error "No previous value at time index 0" :=
  ⟨rfl, rfl⟩

/-- C1 counterexample: with `Past(E)` as an `Eq` operand, evaluation at
time index 0 returns an error rather than the false value, for the
concrete operand `E = Literal(1'd0)`. -/
theorem past_eq_operand_at_zero_errors :
    evaluate_condition
      (.eq (.past (.literal (.decimal 0))) (.literal (.decimal 0))) wA [] 0 =
      .error "No previous value at time index 0" := rfl

/-- C3 (amended): a `Literal` node evaluates to its decoded value only in
comparison (value) context; in truthiness context — bare or as an operand
of `And`/`Or`/`Not` — it is the error "Literals must be used in
comparisons", so `And(Literal(..), X)` never evaluates successfully. -/
theorem literal_eval_contexts (lit : Literal) (x : Condition) (w : Waveform)
    (cache : List (String × SignalRef)) (t : Nat) :
    evaluate_condition_to_value (.literal lit) w cache t = literal_to_i64 lit ∧
    evaluate_condition (.literal lit) w cache t =
      .error "Literals must be used in comparisons" ∧
    evaluate_condition (.and (.literal lit) x) w cache t =
      .error "Literals must be used in comparisons" :=
  ⟨rfl, rfl, rfl⟩

/-- C3 counterexample: `And(Literal(1'b1), Signal(a))` fails to evaluate
even over a waveform where `a` resolves and is true. -/
theorem and_literal_signal_errors :
    evaluate_condition (.and (.literal (.binary [true])) (.signal "a"))
      wA [("a", 0)] 0 = .error "Literals must be used in comparisons" := rfl

/-- C4 (amended): a `Signal` leaf whose provider value is event-typed
fails with the type error "Event signal cannot be compared" in comparison
context, but in truthiness context it silently evaluates to `Ok(false)`
(`is_signal_true` maps `Event` to `false`). -/
theorem event_signal_eval (path : String) (w : Waveform)
    (cache : List (String × SignalRef)) (t : Nat) (r : SignalRef) (sig : WSignal)
    (hc : cache.lookup path = some r) (hs : w.signals r = some sig)
    (ht : t < 2 ^ 32) (hv : sig.valueAt t = some .event) :
    evaluate_condition (.signal path) w cache t = .ok false ∧
    evaluate_condition_to_value (.signal path) w cache t =
      .error "Event signal cannot be compared" := by
  have hl : lookupSignalValue w cache path t = .ok .event := by
    simp [lookupSignalValue, hc, hs, timeIdxFits, hv]
    omega
  constructor
  · show (lookupSignalValue w cache path t).bind
      (fun v => Except.ok (is_signal_true v)) = _
    rw [hl]; rfl
  · show (lookupSignalValue w cache path t).bind signal_value_to_i64 = _
    rw [hl]; rfl

/-- C4 witness: the amended theorem applied at a concrete event-typed
waveform. -/
theorem event_signal_eval_witness :
    evaluate_condition (.signal "p") wEvent [("p", 0)] 0 = .ok false ∧
    evaluate_condition_to_value (.signal "p") wEvent [("p", 0)] 0 =
      .error "Event signal cannot be compared" :=
  event_signal_eval "p" wEvent [("p", 0)] 0 0 (sigConst .event)
    rfl rfl (by decide) rfl

/-- C4 counterexample: in truthiness context an event-typed signal leaf
does *not* fail with a type error — it yields a boolean result. -/
theorem event_truthiness_no_type_error :
    evaluate_condition (.signal "p") wEvent [("p", 0)] 0 = .ok false := rfl

/-- C6 (spec-modelled): a `BitExtract` with both bounds present and
`msb < lsb` always fails — whatever the underlying signal evaluation
produced — and never returns a value with swapped bounds. -/
theorem bitextract_msb_lt_lsb_fails (signalResult : Except String (Nat × Nat))
    (m l : Nat) (h : m < l) :
    (∃ e, bitExtract_evaluate signalResult (some m) (some l) = .error e) ∧
    ∀ res, bitExtract_evaluate signalResult (some m) (some l) ≠ .ok res := by
  have key : ∃ e, bitExtract_evaluate signalResult (some m) (some l) = .error e := by
    cases signalResult with
    | error e => exact ⟨e, rfl⟩
    | ok p =>
      obtain ⟨mag, fw⟩ := p
      exact ⟨"BitExtract with msb < lsb", by simp [bitExtract_evaluate, h]⟩
  obtain ⟨e, he⟩ := key
  exact ⟨⟨e, he⟩, fun res hres => by rw [he] at hres; exact Except.noConfusion hres⟩

/-- C6 witness: the spec-modelled rule applied at `msb = 1 < lsb = 3`
over a successfully evaluated 8-bit signal — no value is produced, not
even the swapped-bounds one. -/
theorem bitextract_msb_lt_lsb_fails_witness :
    (1 : Nat) < 3 ∧
    bitExtract_evaluate (.ok (10, 8)) (some 1) (some 3) ≠ .ok (1, 1) :=
  ⟨by decide, (bitextract_msb_lt_lsb_fails (.ok (10, 8)) 1 3 (by decide)).2 (1, 1)⟩

/-- C7: `Eq`/`Neq` compare the two evaluated `i64` magnitudes and nothing
else — the evaluation results carry no width at all, so widths cannot
affect the comparison. -/
theorem eq_neq_compare_magnitudes (l r : Condition) (w : Waveform)
    (cache : List (String × SignalRef)) (t : Nat) (a b : Int)
    (hl : evaluate_condition_to_value l w cache t = .ok a)
    (hr : evaluate_condition_to_value r w cache t = .ok b) :
    evaluate_condition (.eq l r) w cache t = .ok (a == b) ∧
    evaluate_condition (.neq l r) w cache t = .ok (a != b) := by
  constructor
  · show (evaluate_condition_to_value l w cache t).bind
      (fun lv => (evaluate_condition_to_value r w cache t).bind
        (fun rv => Except.ok (lv == rv))) = _
    rw [hl, hr]; rfl
  · show (evaluate_condition_to_value l w cache t).bind
      (fun lv => (evaluate_condition_to_value r w cache t).bind
        (fun rv => Except.ok (lv != rv))) = _
    rw [hl, hr]; rfl

/-- C7 witness: `4'b0011 == 3'd3` — a 4-bit binary literal against a 3-bit
decimal literal, equal magnitudes, different textual widths — evaluates
to true. -/
theorem eq_neq_compare_magnitudes_witness :
    parse_verilog_literal "4'b0011" = .ok (.binary [false, false, true, true]) ∧
    parse_verilog_literal "3'd3" = .ok (.decimal 3) ∧
    evaluate_condition
      (.eq (.literal (.binary [false, false, true, true])) (.literal (.decimal 3)))
      wA [] 0 = .ok true :=
  ⟨rfl, rfl,
    ((eq_neq_compare_magnitudes (.literal (.binary [false, false, true, true]))
      (.literal (.decimal 3)) wA [] 0 3 3 rfl rfl).1).trans rfl⟩

/-- C9: the extractor returns exactly the `Signal` paths of the condition
(`Literal` nodes contribute none), de-duplicated in first-occurrence
order of the left-to-right traversal. -/
theorem extract_signal_names_spec (c : Condition) :
    extract_signal_names c = firstOccurrenceDedup (signalOccurrences c) ∧
    (extract_signal_names c).Nodup ∧
    ∀ p, p ∈ extract_signal_names c ↔ p ∈ signalOccurrences c := by
  have hfold : extract_signal_names c = (signalOccurrences c).foldl pushNew [] :=
    extract_names_foldl c []
  refine ⟨hfold, ?_, ?_⟩
  · rw [hfold]; exact nodup_foldl_pushNew _ _ List.nodup_nil
  · intro p; rw [hfold, mem_foldl_pushNew]; simp

/-- C10: `find_conditional_events` panics — it does not return an error
value — whenever the slice `time_table[start_idx..=end]` is out of
bounds: in particular whenever the time table is empty, or `start_idx`
is more than one past the clamped end `min(end_idx, len - 1)`.  The
slice is taken before any bounds check on `start_idx`, so this is
reached as soon as the condition parses and all its signals resolve. -/
theorem find_conditional_events_panics (w : Waveform) (cond : String)
    (startIdx endIdx : Nat) (limit : Int) (ast : Condition)
    (cache : List (String × SignalRef))
    (hp : parse_condition cond = .ok ast)
    (hc : buildSignalCache w (extract_signal_names ast) = .ok cache)
    (hpanic : w.timeTable = [] ∨
      min endIdx (w.timeTable.length - 1) + 1 < startIdx) :
    find_conditional_events w cond startIdx endIdx limit = .panicked := by
  have hcond : min endIdx (w.timeTable.length - 1) + 1 > w.timeTable.length ∨
      startIdx > min endIdx (w.timeTable.length - 1) + 1 := by
    rcases hpanic with h | h
    · left; rw [h]; simp
    · right; omega
  simp only [find_conditional_events, hp, hc]
  rw [if_pos hcond]

/-- C10 witness: a parseable condition over a resolvable signal, an empty
time table: the scan panics even with `start_idx = 0`. -/
theorem find_conditional_events_panics_witness :
    parse_condition "a" = .ok (.signal "a") ∧
    buildSignalCache wEmpty (extract_signal_names (.signal "a")) = .ok [("a", 0)] ∧
    find_conditional_events wEmpty "a" 0 0 (-1) = .panicked :=
  ⟨rfl, rfl,
    find_conditional_events_panics wEmpty "a" 0 0 (-1) (.signal "a") [("a", 0)]
      rfl rfl (Or.inl rfl)⟩

/-- Head-step case analysis for `scanLoop` on a nonempty slice: processing
the first slice element either fails (whatever the tail is) or produces an
intermediate accumulator `events1` — unchanged, or extended by exactly one
record carrying time index `startIdx + enumIdx` — after which the loop
returns `events1` if the limit check fires and otherwise continues into
the tail. -/
theorem scanLoop_cons_cases (ast : Condition) (w : Waveform)
    (cache : List (String × SignalRef)) (names : List String)
    (startIdx : Nat) (limit : Int) (t : Nat) (enumIdx : Nat)
    (events : List EventRec) :
    (∃ e, ∀ l, scanLoop ast w cache names startIdx limit (t :: l) enumIdx events =
      .error e) ∨
    (∃ events1 : List EventRec,
      (events1 = events ∨
        ∃ vals, events1 =
          events ++ [⟨startIdx + enumIdx, format_time t w.timescale, vals⟩]) ∧
      ∀ l, scanLoop ast w cache names startIdx limit (t :: l) enumIdx events =
        if 0 ≤ limit ∧ limit.toNat ≤ events1.length then .ok events1
        else scanLoop ast w cache names startIdx limit l (enumIdx + 1) events1) := by
  cases heval : evaluate_condition ast w cache (startIdx + enumIdx) with
  | error e =>
    left
    exact ⟨e, fun l => by simp [scanLoop, heval]⟩
  | ok matched =>
    cases matched with
    | false =>
      right
      exact ⟨events, Or.inl rfl, fun l => by simp [scanLoop, heval]⟩
    | true =>
      cases hcoll : collectSignalValues w cache names (startIdx + enumIdx) with
      | error e =>
        left
        exact ⟨e, fun l => by simp [scanLoop, heval, hcoll]⟩
      | ok vals =>
        right
        exact ⟨events ++ [⟨startIdx + enumIdx, format_time t w.timescale, vals⟩],
          Or.inr ⟨vals, rfl⟩, fun l => by simp [scanLoop, heval, hcoll]⟩

theorem scanLoop_length_le (ast : Condition) (w : Waveform)
    (cache : List (String × SignalRef)) (names : List String)
    (startIdx : Nat) (limit : Int) :
    ∀ (slice : List Nat) (enumIdx : Nat) (events evs : List EventRec),
      0 ≤ limit → events.length < limit.toNat →
      scanLoop ast w cache names startIdx limit slice enumIdx events = .ok evs →
      evs.length ≤ limit.toNat := by
  intro slice
  induction slice with
  | nil =>
    intro enumIdx events evs h0 hlt hok
    simp only [scanLoop, Except.ok.injEq] at hok
    subst hok
    omega
  | cons t rest ih =>
    intro enumIdx events evs h0 hlt hok
    rcases scanLoop_cons_cases ast w cache names startIdx limit t enumIdx events
      with ⟨e, hall⟩ | ⟨events1, hlen, hall⟩
    · rw [hall rest] at hok
      exact Except.noConfusion hok
    · rw [hall rest] at hok
      have hlen1 : events1.length ≤ events.length + 1 := by
        rcases hlen with rfl | ⟨vals, rfl⟩ <;> simp
      by_cases hc : 0 ≤ limit ∧ limit.toNat ≤ events1.length
      · rw [if_pos hc] at hok
        simp only [Except.ok.injEq] at hok
        subst hok
        omega
      · rw [if_neg hc] at hok
        exact ih (enumIdx + 1) events1 evs h0 (by omega) hok

theorem scanLoop_limit_zero (ast : Condition) (w : Waveform)
    (cache : List (String × SignalRef)) (names : List String)
    (startIdx : Nat) :
    ∀ (slice : List Nat) (enumIdx : Nat) (events evs : List EventRec),
      scanLoop ast w cache names startIdx 0 slice enumIdx events = .ok evs →
      evs.length ≤ events.length + 1 := by
  intro slice
  cases slice with
  | nil =>
    intro enumIdx events evs hok
    simp only [scanLoop, Except.ok.injEq] at hok
    subst hok
    omega
  | cons t rest =>
    intro enumIdx events evs hok
    rcases scanLoop_cons_cases ast w cache names startIdx 0 t enumIdx events
      with ⟨e, hall⟩ | ⟨events1, hlen, hall⟩
    · rw [hall rest] at hok
      exact Except.noConfusion hok
    · rw [hall rest, if_pos ⟨le_refl 0, by simp⟩] at hok
      simp only [Except.ok.injEq] at hok
      subst hok
      rcases hlen with rfl | ⟨vals, rfl⟩ <;> simp

theorem scanLoop_append (ast : Condition) (w : Waveform)
    (cache : List (String × SignalRef)) (names : List String)
    (startIdx : Nat) (limit : Int) :
    ∀ (slice : List Nat) (enumIdx : Nat) (events evs : List EventRec)
      (M : List Nat),
      0 ≤ limit → events.length < limit.toNat →
      scanLoop ast w cache names startIdx limit slice enumIdx events = .ok evs →
      limit.toNat ≤ evs.length →
      scanLoop ast w cache names startIdx limit (slice ++ M) enumIdx events =
        .ok evs := by
  intro slice
  induction slice with
  | nil =>
    intro enumIdx events evs M h0 hlt hok hreached
    simp only [scanLoop, Except.ok.injEq] at hok
    subst hok
    omega
  | cons t rest ih =>
    intro enumIdx events evs M h0 hlt hok hreached
    rcases scanLoop_cons_cases ast w cache names startIdx limit t enumIdx events
      with ⟨e, hall⟩ | ⟨events1, hlen, hall⟩
    · rw [hall rest] at hok
      exact Except.noConfusion hok
    · rw [hall rest] at hok
      rw [List.cons_append, hall (rest ++ M)]
      by_cases hc : 0 ≤ limit ∧ limit.toNat ≤ events1.length
      · rw [if_pos hc] at hok ⊢
        exact hok
      · rw [if_neg hc] at hok ⊢
        exact ih (enumIdx + 1) events1 evs M h0 (by omega) hok hreached

/-- Inversion for a successful `find_conditional_events` call: the
condition parsed, every signal resolved, the slice was in bounds and the
scan loop over `time_table[start_idx..=end]` produced the result. -/
theorem find_ok_inv (w : Waveform) (cond : String) (s e : Nat) (limit : Int)
    (evs : List EventRec)
    (hok : find_conditional_events w cond s e limit = .ok evs) :
    ∃ ast cache,
      parse_condition cond = .ok ast ∧
      buildSignalCache w (extract_signal_names ast) = .ok cache ∧
      ¬(min e (w.timeTable.length - 1) + 1 > w.timeTable.length ∨
        s > min e (w.timeTable.length - 1) + 1) ∧
      scanLoop ast w cache (extract_signal_names ast) s limit
        ((w.timeTable.drop s).take (min e (w.timeTable.length - 1) + 1 - s))
        0 [] = .ok evs := by
  unfold find_conditional_events at hok
  split at hok
  · exact RunResult.noConfusion hok
  · rename_i ast hp
    dsimp only at hok
    split at hok
    · exact RunResult.noConfusion hok
    · rename_i cache hc
      split at hok
      · exact RunResult.noConfusion hok
      · rename_i hpanic
        split at hok
        · exact RunResult.noConfusion hok
        · rename_i events hscan
          simp only [RunResult.ok.injEq] at hok
          subst hok
          exact ⟨ast, cache, hp, hc, hpanic, hscan⟩

/-- C2 (amended): with `limit = N ≥ 1`, `find_conditional_events` returns
at most `N` matches and, once `N` matches have been emitted, the rest of
the range is never scanned (extending `end` cannot change the result).
With `limit = N = 0` the scan still examines the first index of the
(clamped) range and returns the match found there, if any — up to one
match, not necessarily an empty list — because the limit check sits at
the end of the loop body, after the push. -/
theorem find_conditional_events_limit (w : Waveform) (cond : String)
    (s e : Nat) (limit : Int) (evs : List EventRec)
    (h0 : 0 ≤ limit)
    (hok : find_conditional_events w cond s e limit = .ok evs) :
    evs.length ≤ max 1 limit.toNat ∧
    (1 ≤ limit → evs.length ≤ limit.toNat) ∧
    (1 ≤ limit → limit.toNat ≤ evs.length →
      ∀ e2, e ≤ e2 → find_conditional_events w cond s e2 limit = .ok evs) := by
  obtain ⟨ast, cache, hp, hc, hnp, hscan⟩ := find_ok_inv w cond s e limit evs hok
  have hbound : 1 ≤ limit → evs.length ≤ limit.toNat := fun h1 =>
    scanLoop_length_le ast w cache (extract_signal_names ast) s limit _ 0 [] evs
      h0 (by simp; omega) hscan
  refine ⟨?_, hbound, ?_⟩
  · by_cases h1 : 1 ≤ limit
    · exact le_trans (hbound h1) (le_max_right _ _)
    · have hl0 : limit = 0 := by omega
      subst hl0
      have := scanLoop_limit_zero ast w cache (extract_signal_names ast) s _ 0 [] evs hscan
      simp only [List.length_nil] at this
      omega
  · intro h1 hreach e2 he2
    push_neg at hnp
    have hlen1 : 1 ≤ w.timeTable.length := by omega
    simp only [find_conditional_events, hp, hc]
    rw [if_neg (by push_neg; constructor <;> omega)]
    have harith : min e2 (w.timeTable.length - 1) + 1 - s =
        (min e (w.timeTable.length - 1) + 1 - s) +
        (min e2 (w.timeTable.length - 1) - min e (w.timeTable.length - 1)) := by
      omega
    rw [harith, List.take_add,
      scanLoop_append ast w cache (extract_signal_names ast) s limit _ 0 [] evs _
        h0 (by simp; omega) hscan hreach]

/-- C2 counterexample: over a waveform whose condition holds at index 0,
`limit = 0` returns one match, not an empty list. -/
theorem find_limit_zero_not_empty :
    find_conditional_events wA "a" 0 3 0 = .ok [wAEvent 0] ∧
    [wAEvent 0].length ≠ 0 :=
  ⟨rfl, by decide⟩

/-- C2 witness: the amended theorem applied at `limit = 2` over `wA`,
where the scan stops after two matches. -/
theorem find_conditional_events_limit_witness :
    (0 : Int) ≤ 2 ∧
    find_conditional_events wA "a" 0 4 2 = .ok [wAEvent 0, wAEvent 1] ∧
    [wAEvent 0, wAEvent 1].length ≤ max 1 (Int.toNat 2) :=
  ⟨by decide, rfl,
    (find_conditional_events_limit wA "a" 0 4 2 [wAEvent 0, wAEvent 1]
      (by decide) rfl).1⟩

theorem scanLoop_range (ast : Condition) (w : Waveform)
    (cache : List (String × SignalRef)) (names : List String)
    (startIdx : Nat) (limit : Int) :
    ∀ (slice : List Nat) (enumIdx : Nat) (events evs : List EventRec),
      (∀ ev ∈ events, ev.timeIdx < startIdx + enumIdx) →
      List.Chain' (· < ·) (events.map EventRec.timeIdx) →
      scanLoop ast w cache names startIdx limit slice enumIdx events = .ok evs →
      (∀ ev ∈ evs, ev ∈ events ∨ startIdx + enumIdx ≤ ev.timeIdx) ∧
      (∀ ev ∈ evs, ev.timeIdx < startIdx + enumIdx + slice.length) ∧
      List.Chain' (· < ·) (evs.map EventRec.timeIdx) := by
  intro slice
  induction slice with
  | nil =>
    intro enumIdx events evs hev hch hok
    simp only [scanLoop, Except.ok.injEq] at hok
    subst hok
    exact ⟨fun ev hm => Or.inl hm,
      fun ev hm => by have := hev ev hm; simpa using Nat.lt_of_lt_of_le this (by omega),
      hch⟩
  | cons t rest ih =>
    intro enumIdx events evs hev hch hok
    rcases scanLoop_cons_cases ast w cache names startIdx limit t enumIdx events
      with ⟨e, hall⟩ | ⟨events1, hcase, hall⟩
    · rw [hall rest] at hok
      exact Except.noConfusion hok
    · rw [hall rest] at hok
      have hev1 : ∀ ev ∈ events1, ev.timeIdx < startIdx + (enumIdx + 1) := by
        rcases hcase with rfl | ⟨vals, rfl⟩
        · intro ev hm; have := hev ev hm; omega
        · intro ev hm
          rcases List.mem_append.mp hm with hm | hm
          · have := hev ev hm; omega
          · simp only [List.mem_singleton] at hm; subst hm; simp
      have hmem1 : ∀ ev ∈ events1, ev ∈ events ∨ startIdx + enumIdx ≤ ev.timeIdx := by
        rcases hcase with rfl | ⟨vals, rfl⟩
        · exact fun ev hm => Or.inl hm
        · intro ev hm
          rcases List.mem_append.mp hm with hm | hm
          · exact Or.inl hm
          · simp only [List.mem_singleton] at hm; subst hm; right; simp
      have hch1 : List.Chain' (· < ·) (events1.map EventRec.timeIdx) := by
        rcases hcase with rfl | ⟨vals, rfl⟩
        · exact hch
        · rw [List.map_append, List.chain'_append]
          refine ⟨hch, List.chain'_singleton _, ?_⟩
          intro x hx y hy
          simp only [List.map_cons, List.map_nil, List.head?_cons,
            Option.mem_def, Option.some.injEq] at hy
          subst hy
          have hx2 : x ∈ events.map EventRec.timeIdx :=
            List.mem_of_mem_getLast? hx
          obtain ⟨ev, hm, rfl⟩ := List.mem_map.mp hx2
          exact hev ev hm
      by_cases hcheck : 0 ≤ limit ∧ limit.toNat ≤ events1.length
      · rw [if_pos hcheck] at hok
        simp only [Except.ok.injEq] at hok
        subst hok
        refine ⟨hmem1, ?_, hch1⟩
        intro ev hm
        have := hev1 ev hm
        simp only [List.length_cons]
        omega
      · rw [if_neg hcheck] at hok
        obtain ⟨h1, h2, h3⟩ := ih (enumIdx + 1) events1 evs hev1 hch1 hok
        refine ⟨?_, ?_, h3⟩
        · intro ev hm
          rcases h1 ev hm with hm1 | hge
          · rcases hmem1 ev hm1 with hm2 | hge2
            · exact Or.inl hm2
            · exact Or.inr hge2
          · right; omega
        · intro ev hm
          have := h2 ev hm
          simp only [List.length_cons]
          omega

theorem buildSignalCache_vars_eq (w w2 : Waveform) (hv : w2.vars = w.vars) :
    ∀ names, buildSignalCache w2 names = buildSignalCache w names := by
  intro names
  induction names with
  | nil => rfl
  | cons n rest ih =>
    simp only [buildSignalCache, hv, ih]

theorem scanLoop_congr (ast : Condition) (w w2 : Waveform)
    (cache : List (String × SignalRef)) (names : List String)
    (startIdx : Nat) (limit : Int) (hts : w2.timescale = w.timescale) :
    ∀ (slice : List Nat) (enumIdx : Nat) (events : List EventRec),
      (∀ t, startIdx + enumIdx ≤ t → t < startIdx + enumIdx + slice.length →
        evaluate_condition ast w2 cache t = evaluate_condition ast w cache t ∧
        collectSignalValues w2 cache names t = collectSignalValues w cache names t) →
      scanLoop ast w2 cache names startIdx limit slice enumIdx events =
        scanLoop ast w cache names startIdx limit slice enumIdx events := by
  intro slice
  induction slice with
  | nil => intro enumIdx events _; rfl
  | cons t rest ih =>
    intro enumIdx events hagree
    obtain ⟨he, hc⟩ := hagree (startIdx + enumIdx) (by omega) (by simp)
    have hagree1 : ∀ u, startIdx + (enumIdx + 1) ≤ u →
        u < startIdx + (enumIdx + 1) + rest.length →
        evaluate_condition ast w2 cache u = evaluate_condition ast w cache u ∧
        collectSignalValues w2 cache names u = collectSignalValues w cache names u := by
      intro u h1 h2
      refine hagree u (by omega) ?_
      simp only [List.length_cons]
      omega
    simp only [scanLoop, he, hc, hts]
    cases heval : evaluate_condition ast w cache (startIdx + enumIdx) with
    | error e => rfl
    | ok matched =>
      cases matched with
      | false =>
        simp only [Bool.false_eq_true, if_false]
        by_cases hcheck : 0 ≤ limit ∧ limit.toNat ≤ events.length
        · rw [if_pos hcheck, if_pos hcheck]
        · rw [if_neg hcheck, if_neg hcheck]
          exact ih (enumIdx + 1) events hagree1
      | true =>
        simp only [eq_self_iff_true, if_true]
        cases hcoll : collectSignalValues w cache names (startIdx + enumIdx) with
        | error e => rfl
        | ok vals =>
          dsimp only
          by_cases hcheck : 0 ≤ limit ∧ limit.toNat ≤ (events ++
              [(⟨startIdx + enumIdx, format_time t w.timescale, vals⟩ : EventRec)]).length
          · rw [if_pos hcheck, if_pos hcheck]
          · rw [if_neg hcheck, if_neg hcheck]
            exact ih (enumIdx + 1) _ hagree1

/-- C8: every match record of a successful `find_conditional_events` call
carries a time index inside the requested inclusive range
`[start, end]`, the records appear in strictly increasing time-index
order, and indices strictly outside the range are never consulted: the
result is unchanged under any waveform that has the same hierarchy, time
table and timescale and agrees with the original on evaluation and value
display at the in-range indices only. -/
theorem find_conditional_events_in_range (w : Waveform) (cond : String)
    (s e : Nat) (limit : Int) (evs : List EventRec)
    (hok : find_conditional_events w cond s e limit = .ok evs) :
    (∀ ev ∈ evs, s ≤ ev.timeIdx ∧ ev.timeIdx ≤ e) ∧
    List.Chain' (· < ·) (evs.map EventRec.timeIdx) ∧
    (∀ w2 : Waveform, w2.vars = w.vars → w2.timeTable = w.timeTable →
      w2.timescale = w.timescale →
      (∀ ast cache t, s ≤ t → t ≤ e →
        evaluate_condition ast w2 cache t = evaluate_condition ast w cache t) →
      (∀ cache names t, s ≤ t → t ≤ e →
        collectSignalValues w2 cache names t = collectSignalValues w cache names t) →
      find_conditional_events w2 cond s e limit = .ok evs) := by
  obtain ⟨ast, cache, hp, hc, hnp, hscan⟩ := find_ok_inv w cond s e limit evs hok
  push_neg at hnp
  obtain ⟨hlen, hse⟩ := hnp
  have hslicelen :
      ((w.timeTable.drop s).take (min e (w.timeTable.length - 1) + 1 - s)).length =
        min e (w.timeTable.length - 1) + 1 - s := by
    simp only [List.length_take, List.length_drop]
    omega
  obtain ⟨h1, h2, h3⟩ := scanLoop_range ast w cache (extract_signal_names ast)
    s limit _ 0 [] evs (by simp) (by simp) hscan
  refine ⟨?_, h3, ?_⟩
  · intro ev hm
    rcases h1 ev hm with hnil | hge
    · exact absurd hnil (List.not_mem_nil ev)
    · have := h2 ev hm
      rw [hslicelen] at this
      constructor
      · omega
      · omega
  · intro w2 hv htt hts heval hcoll
    have hagree : ∀ t, s + 0 ≤ t →
        t < s + 0 +
          ((w.timeTable.drop s).take (min e (w.timeTable.length - 1) + 1 - s)).length →
        evaluate_condition ast w2 cache t = evaluate_condition ast w cache t ∧
        collectSignalValues w2 cache (extract_signal_names ast) t =
          collectSignalValues w cache (extract_signal_names ast) t := by
      intro t ht1 ht2
      rw [hslicelen] at ht2
      have hte : t ≤ e := by omega
      exact ⟨heval ast cache t (by omega) hte,
        hcoll cache (extract_signal_names ast) t (by omega) hte⟩
    simp only [find_conditional_events, hp, buildSignalCache_vars_eq w w2 hv, hc, htt]
    rw [if_neg (by push_neg; exact ⟨hlen, hse⟩),
      scanLoop_congr ast w w2 cache (extract_signal_names ast) s limit hts _ 0 [] hagree,
      hscan]

/-- C8 witness: the theorem applied over `wA` on the range `[1, 3]`:
the reported indices are 1, 2, 3, each inside the range and strictly
increasing. -/
theorem find_conditional_events_in_range_witness :
    find_conditional_events wA "a" 1 3 (-1) =
      .ok [wAEvent 1, wAEvent 2, wAEvent 3] ∧
    (1 ≤ (wAEvent 2).timeIdx ∧ (wAEvent 2).timeIdx ≤ 3) ∧
    List.Chain' (· < ·)
      ([wAEvent 1, wAEvent 2, wAEvent 3].map EventRec.timeIdx) :=
  by
  have hok : find_conditional_events wA "a" 1 3 (-1) =
      .ok [wAEvent 1, wAEvent 2, wAEvent 3] := rfl
  exact ⟨hok,
    (find_conditional_events_in_range wA "a" 1 3 (-1)
      [wAEvent 1, wAEvent 2, wAEvent 3] hok).1 (wAEvent 2) (by simp),
    (find_conditional_events_in_range wA "a" 1 3 (-1)
      [wAEvent 1, wAEvent 2, wAEvent 3] hok).2.1⟩

theorem toLower_fix (c : Char) (h : c.toNat < 65 ∨ 90 < c.toNat) :
    c.toLower = c := by
  unfold Char.toLower
  rw [if_neg]
  omega

theorem splitOnQuote_no_quote (l : List Char) (h : ∀ c ∈ l, c ≠ quoteChar) :
    splitOnQuote l = [l] := by
  induction l with
  | nil => rfl
  | cons c rest ih =>
    simp only [splitOnQuote]
    rw [if_neg (h c (by simp)), ih (fun d hd => h d (by simp [hd]))]

theorem splitOnQuote_append (a b : List Char) (ha : ∀ c ∈ a, c ≠ quoteChar) :
    splitOnQuote (a ++ quoteChar :: b) = a :: splitOnQuote b := by
  induction a with
  | nil =>
    simp [splitOnQuote]
  | cons c rest ih =>
    simp only [List.cons_append, splitOnQuote]
    rw [if_neg (ha c (by simp))]
    simp only [List.append_eq]
    rw [ih (fun d hd => ha d (by simp [hd]))]

theorem decodeBinaryDigits_valid (bc : List Char)
    (hb : ∀ c ∈ bc, c = '0' ∨ c = '1' ∨ c = '_') :
    decodeBinaryDigits bc = .ok (bitsOfDigits bc) := by
  induction bc with
  | nil => rfl
  | cons c rest ih =>
    have hrest := ih (fun d hd => hb d (by simp [hd]))
    rcases hb c (by simp) with rfl | rfl | rfl
    · simp [decodeBinaryDigits, bitsOfDigits, List.filterMap_cons, hrest]
      try rfl
    · simp [decodeBinaryDigits, bitsOfDigits, List.filterMap_cons, hrest]
      try rfl
    · simp [decodeBinaryDigits, bitsOfDigits, List.filterMap_cons, hrest]
      try rfl

theorem lor_two_pow_of_lt : ∀ (i v : Nat), v < 2 ^ i → v ||| 2 ^ i = v + 2 ^ i := by
  intro i
  induction i with
  | zero =>
    intro v hv
    have hv0 : v = 0 := by omega
    subst hv0
    decide
  | succ i ih =>
    intro v hv
    have hdecomp : Nat.bit (Nat.bodd v) (Nat.div2 v) = v := Nat.bit_decomp v
    have hpow2 : 2 ^ (i + 1) = 2 * 2 ^ i := by rw [pow_succ]; ring
    have hpow : Nat.bit false (2 ^ i) = 2 ^ (i + 1) := by
      rw [Nat.bit_false, hpow2]
    have hdiv : Nat.div2 v < 2 ^ i := by
      rw [Nat.div2_val]
      omega
    calc v ||| 2 ^ (i + 1)
        = Nat.bit (Nat.bodd v) (Nat.div2 v) ||| Nat.bit false (2 ^ i) := by
          rw [hdecomp, hpow]
      _ = Nat.bit (Nat.bodd v || false) (Nat.div2 v ||| 2 ^ i) :=
          Nat.lor_bit _ _ _ _
      _ = Nat.bit (Nat.bodd v) (Nat.div2 v + 2 ^ i) := by
          rw [Bool.or_false, ih _ hdiv]
      _ = Nat.bit (Nat.bodd v) (Nat.div2 v) + Nat.bit false (2 ^ i) :=
          Nat.bit_add' _ _ _
      _ = v + 2 ^ (i + 1) := by rw [hdecomp, hpow]

theorem lvVal_lt (l : List Bool) : lvVal l < 2 ^ l.length := by
  induction l with
  | nil => simp [lvVal]
  | cons b rest ih =>
    simp only [lvVal, List.length_cons, pow_succ]
    cases b <;> simp <;> omega

theorem accumBits_eq : ∀ (l : List Bool) (i v : Nat), v < 2 ^ i →
    i + l.length ≤ 63 → accumBits l i v = v + lvVal l * 2 ^ i := by
  intro l
  induction l with
  | nil => intro i v _ _; simp [accumBits, lvVal]
  | cons b rest ih =>
    intro i v hv hlen
    simp only [List.length_cons] at hlen
    have hi64 : i < 64 := by omega
    have hshl : i64shl1pat i = 2 ^ i := by
      unfold i64shl1pat
      rw [Nat.mod_eq_of_lt hi64, Nat.shiftLeft_eq, one_mul]
      exact Nat.mod_eq_of_lt (Nat.pow_lt_pow_right (by norm_num) hi64)
    have hpow2 : 2 ^ (i + 1) = 2 * 2 ^ i := by rw [pow_succ]; ring
    simp only [accumBits]
    cases b with
    | false =>
      simp only [Bool.false_eq_true, if_false]
      rw [ih (i + 1) v (by omega) (by omega)]
      simp only [lvVal, if_false, Bool.false_eq_true]
      rw [hpow2]
      ring
    | true =>
      simp only [if_true]
      rw [hshl, lor_two_pow_of_lt i v hv,
        ih (i + 1) (v + 2 ^ i) (by omega) (by omega)]
      simp only [lvVal, if_true]
      rw [hpow2]
      ring

theorem lvVal_append_singleton (l : List Bool) (b : Bool) :
    lvVal (l ++ [b]) = lvVal l + (if b then 1 else 0) * 2 ^ l.length := by
  induction l with
  | nil => cases b <;> simp [lvVal]
  | cons c rest ih =>
    simp only [List.cons_append, List.append_eq, lvVal, List.length_cons, pow_succ]
    rw [ih]
    ring

theorem foldl_binary_eq (l : List Bool) : ∀ acc : Nat,
    l.foldl (fun acc b => 2 * acc + (if b then 1 else 0)) acc =
      acc * 2 ^ l.length + lvVal l.reverse := by
  induction l with
  | nil => intro acc; simp [lvVal]
  | cons b rest ih =>
    intro acc
    simp only [List.foldl_cons, List.reverse_cons, List.length_cons]
    rw [ih, lvVal_append_singleton]
    simp only [List.length_reverse, pow_succ]
    ring

theorem binaryValue_eq_lvVal_reverse (bits : List Bool) :
    binaryValue bits = lvVal bits.reverse := by
  unfold binaryValue
  rw [foldl_binary_eq]
  simp

theorem literal_to_i64_binary (bits : List Bool) (hlen : bits.length ≤ 63) :
    literal_to_i64 (.binary bits) = .ok ((binaryValue bits : Nat) : Int) := by
  have h0 : literal_to_i64 (.binary bits) =
      .ok (i64OfPat (accumBits bits.reverse 0 0)) := rfl
  have hlt : lvVal bits.reverse < 2 ^ 63 := by
    calc lvVal bits.reverse < 2 ^ bits.reverse.length := lvVal_lt _
      _ ≤ 2 ^ 63 := by
          apply Nat.pow_le_pow_right (by norm_num)
          simp only [List.length_reverse]
          omega
  rw [h0, accumBits_eq bits.reverse 0 0 (by norm_num)
    (by simp only [List.length_reverse]; omega)]
  simp only [Nat.zero_add, mul_one, pow_zero]
  unfold i64OfPat
  rw [if_pos hlt, binaryValue_eq_lvVal_reverse]

theorem parse_binary_literal (s : String) (wc bc : List Char)
    (hs : s.data = wc ++ quoteChar :: 'b' :: bc)
    (hw : ∀ c ∈ wc, isAsciiDigit c = true)
    (hwp : (parseUsize wc).isSome = true)
    (hb : ∀ c ∈ bc, c = '0' ∨ c = '1' ∨ c = '_') :
    parse_verilog_literal s = .ok (.binary (bitsOfDigits bc)) := by
  have hwnat : ∀ c ∈ wc, 48 ≤ c.toNat ∧ c.toNat ≤ 57 := by
    intro c hc
    have h := hw c hc
    simp only [isAsciiDigit, Bool.and_eq_true, decide_eq_true_eq] at h
    exact h
  have h1 : wc.map Char.toLower = wc := by
    have hfix : ∀ c ∈ wc, Char.toLower c = c := fun c hc =>
      toLower_fix c (Or.inl (by have := hwnat c hc; omega))
    calc wc.map Char.toLower = wc.map id := List.map_congr_left hfix
      _ = wc := List.map_id wc
  have h4 : bc.map Char.toLower = bc := by
    have hfix : ∀ c ∈ bc, Char.toLower c = c := by
      intro c hc
      rcases hb c hc with rfl | rfl | rfl
      · exact toLower_fix _ (Or.inl (by decide))
      · exact toLower_fix _ (Or.inl (by decide))
      · exact toLower_fix _ (Or.inr (by decide))
    calc bc.map Char.toLower = bc.map id := List.map_congr_left hfix
      _ = bc := List.map_id bc
  have hmap : (wc ++ quoteChar :: 'b' :: bc).map Char.toLower =
      wc ++ quoteChar :: 'b' :: bc := by
    rw [List.map_append, List.map_cons, List.map_cons, h1, h4,
      toLower_fix quoteChar (Or.inl (by decide)),
      toLower_fix 'b' (Or.inr (by decide))]
  have hnqw : ∀ c ∈ wc, c ≠ quoteChar := by
    intro c hc heq
    have h := hwnat c hc
    rw [heq] at h
    have h39 : quoteChar.toNat = 39 := by decide
    omega
  have hnqb : ∀ c ∈ ('b' :: bc), c ≠ quoteChar := by
    intro c hc
    rcases List.mem_cons.mp hc with rfl | hc
    · decide
    · rcases hb c hc with rfl | rfl | rfl <;> decide
  obtain ⟨wv, hwv⟩ := Option.isSome_iff_exists.mp hwp
  unfold parse_verilog_literal
  rw [hs, hmap]
  dsimp only
  rw [splitOnQuote_append wc ('b' :: bc) hnqw,
    splitOnQuote_no_quote ('b' :: bc) hnqb]
  dsimp only
  rw [hwv]
  dsimp only
  rw [if_pos rfl, decodeBinaryDigits_valid bc hb]

/-- C5 (amended): for every valid sized binary literal token
`<w>'b<bits>`, parsing succeeds and stores exactly the `0`/`1` digits (in
order, underscores dropped) as the decoded value; the prefix width `w` is
validated as a number but *discarded* — no width is part of the decoded
literal.  Evaluation yields the unsigned binary value of `<bits>`
regardless of leading zeros, provided the literal fits the evaluator's
`i64` (at most 63 bits). -/
theorem binary_literal_decode (s : String) (wc bc : List Char)
    (hs : s.data = wc ++ quoteChar :: 'b' :: bc)
    (hw : ∀ c ∈ wc, isAsciiDigit c = true)
    (hwp : (parseUsize wc).isSome = true)
    (hb : ∀ c ∈ bc, c = '0' ∨ c = '1' ∨ c = '_') :
    parse_verilog_literal s = .ok (.binary (bitsOfDigits bc)) ∧
    ((bitsOfDigits bc).length ≤ 63 →
      literal_to_i64 (.binary (bitsOfDigits bc)) =
        .ok ((binaryValue (bitsOfDigits bc) : Nat) : Int)) :=
  ⟨parse_binary_literal s wc bc hs hw hwp hb,
    fun hlen => literal_to_i64_binary _ hlen⟩

/-- C5 counterexample: the valid 4-bit token `4'b01` and the valid 2-bit
token `2'b01` decode to the *same* `Literal` value even though their
prefix widths 4 and 2 differ, so the decoded result is not a (magnitude,
width) pair whose width equals the prefix — no function of the decoded
value can return the declared width for both tokens. -/
theorem binary_literal_width_discarded :
    parse_verilog_literal "4'b01" = parse_verilog_literal "2'b01" ∧
    parse_verilog_literal "4'b01" = .ok (.binary [false, true]) ∧
    (4 : Nat) ≠ 2 :=
  ⟨rfl, rfl, by norm_num⟩

/-- C5 witness: the amended theorem applied at the token `4'b0101`. -/
theorem binary_literal_decode_witness :
    parse_verilog_literal "4'b0101" =
      .ok (.binary (bitsOfDigits ['0', '1', '0', '1'])) ∧
    literal_to_i64 (.binary (bitsOfDigits ['0', '1', '0', '1'])) =
      .ok ((binaryValue (bitsOfDigits ['0', '1', '0', '1']) : Nat) : Int) := by
  have h := binary_literal_decode "4'b0101" ['4'] ['0', '1', '0', '1']
    (by decide) (by decide) (by decide) (by decide)
  exact ⟨h.1, h.2 (by decide)⟩
